import Mathlib

/-!
Shallow embedding of `hexcore/utils/terminal.py`.

The file `~/.bashrc` is modelled as `Option (List Char)`: `none` means the
file does not exist, `some c` means it exists with raw content `c`.
Python's substring test `needle in content` is modelled by `containsCL`,
Python's `file.readlines()` by `splitLines` (lines keep their trailing
newline; a final fragment without a newline is its own line), and
`file.writelines(ls)` writes `ls.flatten`.
-/

namespace Hexcore

/-- The substring the code tests for before appending the COLORTERM line
(`"COLORTERM=truecolor" not in content`, terminal.py line 41). -/
def colorMarker : List Char := "COLORTERM=truecolor".toList

/-- The substring the code tests for before appending the TERM line
(`"TERM=xterm-256color" not in content`, terminal.py line 44). -/
def termMarker : List Char := "TERM=xterm-256color".toList

/-- The line appended for COLORTERM, with its trailing newline
(terminal.py line 42). -/
def colorExport : List Char := "export COLORTERM=truecolor\n".toList

/-- The line appended for TERM, with its trailing newline
(terminal.py line 45). -/
def termExport : List Char := "export TERM=xterm-256color\n".toList

/-- `headMatch needle hay` is true when `needle` is an initial segment of
`hay`; building block of the substring test. -/
def headMatch : List Char → List Char → Bool
  | [], _ => true
  | _ :: _, [] => false
  | a :: as, b :: bs => a == b && headMatch as bs

/-- Python's `needle in haystack` on character lists: some contiguous run of
`haystack` equals `needle`. -/
def containsCL (haystack needle : List Char) : Bool :=
  match haystack with
  | [] => headMatch needle []
  | c :: rest => headMatch needle (c :: rest) || containsCL rest needle

/-- Python's `file.readlines()` applied to raw content: split after every
newline character, keeping the newline at the end of each line; a trailing
fragment without a newline becomes a final line of its own; empty content
gives no lines. -/
def splitLines : List Char → List (List Char)
  | [] => []
  | c :: cs =>
    if c = '\n' then ['\n'] :: splitLines cs
    else
      match splitLines cs with
      | [] => [[c]]
      | l :: ls => (c :: l) :: ls

/-- The console messages the module prints, one constructor per distinct
`print` site. -/
inductive Msg : Type
  | added
  | alreadyPresent
  | removed
  | nothingToRemove
  | noneFound
  deriving DecidableEq

/-- Result of `enable_truecolor_support`: the file always exists afterwards;
`wrote` records whether content was appended. -/
structure EnableResult where
  file : List Char
  wrote : Bool
  msg : Msg
  deriving DecidableEq

/-- The list `lines_to_add` built at terminal.py lines 39-45: for each marker
substring not contained in the content, the corresponding export line. -/
def linesToAdd (content : List Char) : List (List Char) :=
  (if containsCL content colorMarker then [] else [colorExport]) ++
    (if containsCL content termMarker then [] else [termExport])

/-- `enable_truecolor_support` (terminal.py lines 25-53): create the file
empty if absent, read it, and append the missing export lines; report
`added` after a write, `alreadyPresent` otherwise. -/
def enable_truecolor_support (file : Option (List Char)) : EnableResult :=
  let content := file.getD []
  let adds := linesToAdd content
  if adds = [] then ⟨content, false, Msg.alreadyPresent⟩
  else ⟨content ++ adds.flatten, true, Msg.added⟩

/-- A line survives `disable_truecolor_support`'s filter (terminal.py
lines 69-72) when it contains neither marker substring. -/
def keepLine (l : List Char) : Bool :=
  !containsCL l colorMarker && !containsCL l termMarker

/-- Result of `disable_truecolor_support`: the file may still be absent;
`wrote` records whether the file was rewritten. -/
structure DisableResult where
  file : Option (List Char)
  wrote : Bool
  msg : Msg
  deriving DecidableEq

/-- `disable_truecolor_support` (terminal.py lines 56-80): on a missing file
report `nothingToRemove`; otherwise drop every line containing a marker
substring and rewrite the file only when the number of lines changed. -/
def disable_truecolor_support (file : Option (List Char)) : DisableResult :=
  match file with
  | none => ⟨none, false, Msg.nothingToRemove⟩
  | some content =>
    let lines := splitLines content
    let newLines := lines.filter keepLine
    if newLines.length ≠ lines.length then ⟨some newLines.flatten, true, Msg.removed⟩
    else ⟨some content, false, Msg.noneFound⟩

/-- The two boolean CLI flags of the argument namespace. -/
structure Args where
  enable_truecolor : Bool
  disable_truecolor : Bool

/-- What `handle_arguments` did: printed the conflict error, ran enable, ran
disable, or nothing. -/
inductive Action : Type
  | conflictError
  | ranEnable
  | ranDisable
  | noAction
  deriving DecidableEq

/-- `handle_arguments` (terminal.py lines 104-125): both flags print the
conflict error and count as handled without touching the file; a single flag
runs its operation; no flag is reported as not handled. Returns the file
state, the boolean the Python function returns, and the action taken. -/
def handle_arguments (args : Args) (file : Option (List Char)) :
    Option (List Char) × Bool × Action :=
  if args.enable_truecolor && args.disable_truecolor then
    (file, true, Action.conflictError)
  else if args.enable_truecolor then
    (some (enable_truecolor_support file).file, true, Action.ranEnable)
  else if args.disable_truecolor then
    ((disable_truecolor_support file).file, true, Action.ranDisable)
  else
    (file, false, Action.noAction)

/-- Shape of the output of `splitLines`: every line ends with a newline and
has no interior newline, except that the final line may instead be a
nonempty run without any newline. -/
inductive ChunksWF : List (List Char) → Prop
  | nil : ChunksWF []
  | consNL {m : List Char} {ls : List (List Char)} :
      '\n' ∉ m → ChunksWF ls → ChunksWF ((m ++ ['\n']) :: ls)
  | lastRaw {l : List Char} : l ≠ [] → '\n' ∉ l → ChunksWF [l]

/-- Shape of `splitLines` output when the content ends with a newline: every
line, the last included, ends with a newline and has no interior newline. -/
inductive NLChunks : List (List Char) → Prop
  | nil : NLChunks []
  | cons {m : List Char} {ls : List (List Char)} :
      '\n' ∉ m → NLChunks ls → NLChunks ((m ++ ['\n']) :: ls)

theorem headMatch_iff (m c : List Char) : headMatch m c = true ↔ ∃ t, c = m ++ t := by
  induction m generalizing c with
  | nil => simp [headMatch]
  | cons a as ih =>
    cases c with
    | nil => simp [headMatch]
    | cons b bs =>
      simp only [headMatch, Bool.and_eq_true, beq_iff_eq, ih, List.cons_append,
        List.cons.injEq]
      constructor
      · rintro ⟨rfl, t, rfl⟩
        exact ⟨t, rfl, rfl⟩
      · rintro ⟨t, rfl, rfl⟩
        exact ⟨rfl, t, rfl⟩

theorem containsCL_iff (c m : List Char) :
    containsCL c m = true ↔ ∃ s t, c = s ++ m ++ t := by
  induction c with
  | nil =>
    simp only [containsCL, headMatch_iff]
    constructor
    · rintro ⟨t, h⟩
      exact ⟨[], t, by simpa using h⟩
    · rintro ⟨s, t, h⟩
      simp only [List.nil_eq, List.append_eq_nil] at h
      obtain ⟨⟨rfl, rfl⟩, rfl⟩ := h
      exact ⟨[], rfl⟩
  | cons x xs ih =>
    simp only [containsCL, Bool.or_eq_true, headMatch_iff, ih]
    constructor
    · rintro (⟨t, h⟩ | ⟨s, t, h⟩)
      · exact ⟨[], t, by simpa using h⟩
      · exact ⟨x :: s, t, by simp [h]⟩
    · rintro ⟨s, t, h⟩
      cases s with
      | nil => exact Or.inl ⟨t, by simpa using h⟩
      | cons y s' =>
        right
        refine ⟨s', t, ?_⟩
        simpa using congrArg List.tail h

theorem containsCL_append_left {s m : List Char} (t : List Char)
    (h : containsCL s m = true) : containsCL (s ++ t) m = true := by
  rw [containsCL_iff] at h ⊢
  obtain ⟨u, v, rfl⟩ := h
  exact ⟨u, v ++ t, by simp⟩

theorem containsCL_append_right (s : List Char) {t m : List Char}
    (h : containsCL t m = true) : containsCL (s ++ t) m = true := by
  rw [containsCL_iff] at h ⊢
  obtain ⟨u, v, rfl⟩ := h
  exact ⟨s ++ u, v, by simp⟩

theorem splitLines_eq_nil_iff (s : List Char) : splitLines s = [] ↔ s = [] := by
  constructor
  · intro h
    cases s with
    | nil => rfl
    | cons c cs =>
      by_cases hc : c = '\n'
      · simp [splitLines, hc] at h
      · simp only [splitLines, if_neg hc] at h
        cases hsp : splitLines cs with
        | nil => rw [hsp] at h; simp at h
        | cons l ls => rw [hsp] at h; simp at h
  · rintro rfl
    rfl

theorem flatten_splitLines (s : List Char) : (splitLines s).flatten = s := by
  induction s with
  | nil => rfl
  | cons c cs ih =>
    by_cases hc : c = '\n'
    · subst hc
      simp [splitLines, ih]
    · simp only [splitLines, if_neg hc]
      cases hsp : splitLines cs with
      | nil =>
        have hnil : cs = [] := (splitLines_eq_nil_iff cs).mp hsp
        subst hnil
        rfl
      | cons l ls =>
        rw [hsp] at ih
        simp only [List.flatten_cons] at ih ⊢
        rw [List.cons_append, ih]

theorem splitLines_append_line (m rest : List Char) (h : '\n' ∉ m) :
    splitLines (m ++ '\n' :: rest) = (m ++ ['\n']) :: splitLines rest := by
  induction m with
  | nil => simp [splitLines]
  | cons a m' ih =>
    have ha : a ≠ '\n' := fun hh => h (hh ▸ List.mem_cons_self a m')
    have hm' : '\n' ∉ m' := fun hh => h (List.mem_cons_of_mem a hh)
    simp only [List.cons_append, splitLines, if_neg ha, List.append_eq, ih hm']

theorem splitLines_no_newline (l : List Char) (h1 : l ≠ []) (h2 : '\n' ∉ l) :
    splitLines l = [l] := by
  induction l with
  | nil => cases h1 rfl
  | cons a l' ih =>
    have ha : a ≠ '\n' := fun hh => h2 (hh ▸ List.mem_cons_self a l')
    have hl' : '\n' ∉ l' := fun hh => h2 (List.mem_cons_of_mem a hh)
    by_cases h0 : l' = []
    · subst h0
      simp [splitLines, if_neg ha]
    · simp only [splitLines, if_neg ha, ih h0 hl']

theorem chunksWF_splitLines (s : List Char) : ChunksWF (splitLines s) := by
  induction s with
  | nil => exact ChunksWF.nil
  | cons c cs ih =>
    by_cases hc : c = '\n'
    · subst hc
      have hstep : splitLines ('\n' :: cs) = ([] ++ ['\n']) :: splitLines cs := by
        simp [splitLines]
      rw [hstep]
      exact ChunksWF.consNL (by simp) ih
    · simp only [splitLines, if_neg hc]
      cases hsp : splitLines cs with
      | nil =>
        exact ChunksWF.lastRaw (by simp)
          (fun hmem => hc (List.mem_singleton.mp hmem).symm)
      | cons l ls =>
        rw [hsp] at ih
        cases ih with
        | consNL hm hls =>
          rename_i m
          show ChunksWF ((c :: (m ++ ['\n'])) :: ls)
          have hshape : (c :: (m ++ ['\n'])) :: ls = ((c :: m) ++ ['\n']) :: ls := rfl
          rw [hshape]
          refine ChunksWF.consNL ?_ hls
          intro hmem
          rcases List.mem_cons.mp hmem with he | hin
          · exact hc he.symm
          · exact hm hin
        | lastRaw h1 h2 =>
          show ChunksWF [c :: l]
          refine ChunksWF.lastRaw (by simp) ?_
          intro hmem
          rcases List.mem_cons.mp hmem with he | hin
          · exact hc he.symm
          · exact h2 hin

theorem splitLines_flatten {ls : List (List Char)} (h : ChunksWF ls) :
    splitLines ls.flatten = ls := by
  induction h with
  | nil => rfl
  | consNL hm hls ih =>
    rename_i m ls'
    have hflat : ((m ++ ['\n']) :: ls').flatten = m ++ '\n' :: ls'.flatten := by
      simp [List.append_assoc]
    rw [hflat, splitLines_append_line _ _ hm, ih]
  | lastRaw h1 h2 =>
    rename_i l
    simp only [List.flatten_cons, List.flatten_nil, List.append_nil]
    exact splitLines_no_newline l h1 h2

theorem chunksWF_filter (p : List Char → Bool) {ls : List (List Char)}
    (h : ChunksWF ls) : ChunksWF (ls.filter p) := by
  induction h with
  | nil => exact ChunksWF.nil
  | consNL hm hls ih =>
    rename_i m ls'
    by_cases hp : p (m ++ ['\n']) = true
    · rw [List.filter_cons_of_pos hp]
      exact ChunksWF.consNL hm ih
    · rw [List.filter_cons_of_neg (by simpa using hp)]
      exact ih
  | lastRaw h1 h2 =>
    rename_i l
    by_cases hp : p l = true
    · rw [List.filter_cons_of_pos hp, List.filter_nil]
      exact ChunksWF.lastRaw h1 h2
    · rw [List.filter_cons_of_neg (by simpa using hp), List.filter_nil]
      exact ChunksWF.nil

theorem splitLines_flatten_append {ls : List (List Char)} (X : List Char)
    (h : NLChunks ls) : splitLines (ls.flatten ++ X) = ls ++ splitLines X := by
  induction h with
  | nil => simp
  | cons hm hls ih =>
    rename_i m ls'
    have hflat : ((m ++ ['\n']) :: ls').flatten ++ X = m ++ '\n' :: (ls'.flatten ++ X) := by
      simp [List.append_assoc]
    rw [hflat, splitLines_append_line _ _ hm, ih, List.cons_append]

theorem nlChunks_of_endNL {ls : List (List Char)} (h : ChunksWF ls)
    (h2 : ls.flatten = [] ∨ ls.flatten.getLast? = some '\n') : NLChunks ls := by
  induction h with
  | nil => exact NLChunks.nil
  | consNL hm hls ih =>
    rename_i m ls'
    refine NLChunks.cons hm (ih ?_)
    by_cases hf : ls'.flatten = []
    · exact Or.inl hf
    · right
      rcases h2 with h2 | h2
      · exfalso
        rw [List.flatten_cons, List.append_eq_nil] at h2
        simp at h2
      · rw [List.flatten_cons] at h2
        rwa [List.getLast?_append_of_ne_nil _ hf] at h2
  | lastRaw h1 hnl =>
    rename_i l
    exfalso
    simp only [List.flatten_cons, List.flatten_nil, List.append_nil] at h2
    rcases h2 with h2 | h2
    · exact h1 h2
    · rw [List.getLast?_eq_getLast_of_ne_nil h1] at h2
      have hlast : l.getLast h1 = '\n' := Option.some.inj h2
      exact hnl (hlast ▸ List.getLast_mem h1)

/-- For content that is empty or ends with a newline, splitting lines
distributes over appending more content. -/
theorem splitLines_append_of_endNL (C X : List Char)
    (h : C = [] ∨ C.getLast? = some '\n') :
    splitLines (C ++ X) = splitLines C ++ splitLines X := by
  have hwf := chunksWF_splitLines C
  have hnl : NLChunks (splitLines C) :=
    nlChunks_of_endNL hwf (by rw [flatten_splitLines]; exact h)
  calc splitLines (C ++ X) = splitLines ((splitLines C).flatten ++ X) := by
        rw [flatten_splitLines]
  _ = splitLines C ++ splitLines X := splitLines_flatten_append X hnl

theorem colorMarker_in_colorExport : containsCL colorExport colorMarker = true := by decide

theorem termMarker_in_termExport : containsCL termExport termMarker = true := by decide

/-- The file after enable is always the old content followed by the flattened
queued lines (the append-mode write; a no-op append when nothing was queued). -/
theorem enable_file_eq (file : Option (List Char)) :
    (enable_truecolor_support file).file
      = file.getD [] ++ (linesToAdd (file.getD [])).flatten := by
  unfold enable_truecolor_support
  by_cases h : linesToAdd (file.getD []) = []
  · simp [h]
  · simp [h]

/-- After appending the queued lines, both marker substrings are contained in
the content. -/
theorem enable_has_markers (C : List Char) :
    containsCL (C ++ (linesToAdd C).flatten) colorMarker = true ∧
    containsCL (C ++ (linesToAdd C).flatten) termMarker = true := by
  unfold linesToAdd
  cases h1 : containsCL C colorMarker <;> cases h2 : containsCL C termMarker <;>
    simp only [Bool.false_eq_true, if_false, if_true, List.nil_append, List.append_nil,
      List.flatten_cons, List.flatten_nil]
  · constructor
    · exact containsCL_append_right C (containsCL_append_left _ colorMarker_in_colorExport)
    · exact containsCL_append_right C (containsCL_append_right colorExport
        (containsCL_append_left _ termMarker_in_termExport))
  · constructor
    · exact containsCL_append_right C (containsCL_append_left _ colorMarker_in_colorExport)
    · exact containsCL_append_left _ h2
  · constructor
    · exact containsCL_append_left _ h1
    · exact containsCL_append_right C (containsCL_append_left _ termMarker_in_termExport)
  · exact ⟨h1, h2⟩

/-- Enable on content already containing both marker substrings: nothing is
appended, nothing is written, and the informational message is printed. -/
theorem enable_already {c : List Char} (h1 : containsCL c colorMarker = true)
    (h2 : containsCL c termMarker = true) :
    enable_truecolor_support (some c) = ⟨c, false, Msg.alreadyPresent⟩ := by
  unfold enable_truecolor_support linesToAdd
  simp [h1, h2]

/-- Disable on an existing file always leaves a file whose lines are exactly
the original lines that contain neither marker substring. -/
theorem disable_lines (C : List Char) :
    ∃ d, (disable_truecolor_support (some C)).file = some d ∧
      splitLines d = (splitLines C).filter keepLine := by
  by_cases hlen : ((splitLines C).filter keepLine).length ≠ (splitLines C).length
  · refine ⟨((splitLines C).filter keepLine).flatten, ?_, ?_⟩
    · simp only [disable_truecolor_support]
      rw [if_pos hlen]
    · exact splitLines_flatten (chunksWF_filter keepLine (chunksWF_splitLines C))
  · push_neg at hlen
    have heq : (splitLines C).filter keepLine = splitLines C :=
      (List.filter_sublist (splitLines C)).eq_of_length hlen
    refine ⟨C, ?_, by rw [heq]⟩
    simp only [disable_truecolor_support]
    rw [if_neg (fun hcon => hcon hlen)]

/-- Disable on a file none of whose lines contains a marker substring writes
nothing and prints the informational message. -/
theorem disable_noop {c : List Char} (h : ∀ l ∈ splitLines c, keepLine l = true) :
    disable_truecolor_support (some c) = ⟨some c, false, Msg.noneFound⟩ := by
  have heq : (splitLines c).filter keepLine = splitLines c := List.filter_eq_self.mpr h
  simp only [disable_truecolor_support]
  rw [heq, if_neg (fun hcon => hcon rfl)]

/-- C1 counterexample: the content "hello" (no trailing newline) contains no
marker substring, so the claim requires its line to survive Enable;Disable,
yet the run leaves an empty file — the append-mode write glues the first
export line onto the unterminated last line, and Disable then removes the
combined line. -/
theorem C1_counterexample :
    (splitLines ("hello".toList)).filter keepLine = [("hello".toList)]
  ∧ (disable_truecolor_support
      (some (enable_truecolor_support (some ("hello".toList))).file)).file = some [] := by
  decide

/-- C1 (amended): for every initial content that is empty or ends with a
newline, Enable followed by Disable yields a file whose line sequence is
exactly the original lines with every line containing either marker
substring removed; the remaining lines keep their order and content. -/
theorem C1_enable_then_disable (C : List Char)
    (h : C = [] ∨ C.getLast? = some '\n') :
    ∃ d, (disable_truecolor_support
        (some (enable_truecolor_support (some C)).file)).file = some d
      ∧ splitLines d = (splitLines C).filter keepLine := by
  obtain ⟨d, hd, hsplit⟩ := disable_lines ((enable_truecolor_support (some C)).file)
  refine ⟨d, hd, ?_⟩
  rw [hsplit, enable_file_eq]
  simp only [Option.getD_some]
  rw [splitLines_append_of_endNL C ((linesToAdd C).flatten) h, List.filter_append]
  have hz : (splitLines ((linesToAdd C).flatten)).filter keepLine = [] := by
    unfold linesToAdd
    cases h1 : containsCL C colorMarker <;> cases h2 : containsCL C termMarker <;> decide
  rw [hz, List.append_nil]

/-- Witness for C1 at the concrete newline-terminated content "ok\n". -/
theorem C1_witness :
    ∃ d, (disable_truecolor_support
        (some (enable_truecolor_support (some ("ok\n".toList))).file)).file = some d
      ∧ splitLines d = (splitLines ("ok\n".toList)).filter keepLine :=
  C1_enable_then_disable ("ok\n".toList) (Or.inr (by decide))

/-- C2 counterexample: for the content "COLORTERM=truecolor\n" the full
string "export COLORTERM=truecolor" is not a substring, so the claim requires
Enable to queue the COLORTERM export line; the code queues only the TERM
line, because its test uses the fragment without the "export " prefix. -/
theorem C2_counterexample :
    containsCL ("COLORTERM=truecolor\n".toList) ("export COLORTERM=truecolor".toList) = false
  ∧ linesToAdd ("COLORTERM=truecolor\n".toList) = [termExport] := by
  decide

/-- C2 (amended): the presence test is substring containment of the
fragments "COLORTERM=truecolor" and "TERM=xterm-256color" (without the
"export " prefix): Enable queues an export line iff its fragment is not
contained in the content, and Disable keeps exactly the lines containing
neither fragment. -/
theorem C2_fragment_presence (C : List Char) :
    (colorExport ∈ linesToAdd C ↔ ¬ containsCL C colorMarker = true)
  ∧ (termExport ∈ linesToAdd C ↔ ¬ containsCL C termMarker = true)
  ∧ ∃ d, (disable_truecolor_support (some C)).file = some d
      ∧ splitLines d = (splitLines C).filter
          (fun l => !(containsCL l colorMarker || containsCL l termMarker)) := by
  refine ⟨?_, ?_, ?_⟩
  · unfold linesToAdd
    cases h1 : containsCL C colorMarker <;> cases h2 : containsCL C termMarker <;> decide
  · unfold linesToAdd
    cases h1 : containsCL C colorMarker <;> cases h2 : containsCL C termMarker <;> decide
  · obtain ⟨d, hd, hsplit⟩ := disable_lines C
    refine ⟨d, hd, ?_⟩
    rw [hsplit]
    have hfun : (fun l => !(containsCL l colorMarker || containsCL l termMarker)) = keepLine := by
      funext l
      unfold keepLine
      cases containsCL l colorMarker <;> cases containsCL l termMarker <;> rfl
    rw [hfun]

/-- C3: Enable and Disable are each idempotent on the file state, and the
second application performs no write. -/
theorem C3_idempotent (file : Option (List Char)) :
    (enable_truecolor_support (some (enable_truecolor_support file).file)).file
        = (enable_truecolor_support file).file
  ∧ (enable_truecolor_support (some (enable_truecolor_support file).file)).wrote = false
  ∧ (disable_truecolor_support (disable_truecolor_support file).file).file
        = (disable_truecolor_support file).file
  ∧ (disable_truecolor_support (disable_truecolor_support file).file).wrote = false := by
  have hen : enable_truecolor_support (some (enable_truecolor_support file).file)
      = ⟨(enable_truecolor_support file).file, false, Msg.alreadyPresent⟩ := by
    have hmk := enable_has_markers (file.getD [])
    rw [← enable_file_eq] at hmk
    exact enable_already hmk.1 hmk.2
  refine ⟨by rw [hen], by rw [hen], ?_, ?_⟩
  all_goals cases file with
  | none => rfl
  | some C =>
    obtain ⟨d, hd, hsplit⟩ := disable_lines C
    have hkeep : ∀ l ∈ splitLines d, keepLine l = true := by
      intro l hl
      rw [hsplit] at hl
      exact (List.mem_filter.mp hl).2
    rw [hd, disable_noop hkeep]

/-- C4: after Enable both marker substrings are contained somewhere in the
file; after Disable no line of the (possibly absent) file contains either
marker substring. -/
theorem C4_invariants (file : Option (List Char)) :
    containsCL (enable_truecolor_support file).file colorMarker = true
  ∧ containsCL (enable_truecolor_support file).file termMarker = true
  ∧ (splitLines ((disable_truecolor_support file).file.getD [])).all keepLine = true := by
  refine ⟨?_, ?_, ?_⟩
  · rw [enable_file_eq]
    exact (enable_has_markers (file.getD [])).1
  · rw [enable_file_eq]
    exact (enable_has_markers (file.getD [])).2
  · cases file with
    | none => rfl
    | some C =>
      obtain ⟨d, hd, hsplit⟩ := disable_lines C
      rw [hd]
      simp only [Option.getD_some]
      rw [hsplit, List.all_eq_true]
      intro l hl
      exact (List.mem_filter.mp hl).2

/-- C5: Enable on a missing file creates it and the result is exactly the
two export lines, COLORTERM first, each newline-terminated. -/
theorem C5_enable_missing :
    (enable_truecolor_support none).file = colorExport ++ termExport
  ∧ (enable_truecolor_support none).wrote = true
  ∧ splitLines (enable_truecolor_support none).file = [colorExport, termExport] := by
  decide

/-- C6: Enable on content already containing both marker substrings leaves
the content unchanged, performs no write, and prints the already-present
informational message. -/
theorem C6_enable_no_write (C : List Char)
    (h1 : containsCL C colorMarker = true) (h2 : containsCL C termMarker = true) :
    enable_truecolor_support (some C) = ⟨C, false, Msg.alreadyPresent⟩ :=
  enable_already h1 h2

/-- Witness for C6 at a content holding both export lines. -/
theorem C6_witness :
    containsCL ("export COLORTERM=truecolor\nexport TERM=xterm-256color\n".toList)
      colorMarker = true
  ∧ containsCL ("export COLORTERM=truecolor\nexport TERM=xterm-256color\n".toList)
      termMarker = true
  ∧ enable_truecolor_support
        (some ("export COLORTERM=truecolor\nexport TERM=xterm-256color\n".toList))
      = ⟨"export COLORTERM=truecolor\nexport TERM=xterm-256color\n".toList, false,
          Msg.alreadyPresent⟩ :=
  ⟨by decide, by decide, C6_enable_no_write _ (by decide) (by decide)⟩

/-- C7: Disable on an existing file keeps exactly the lines containing
neither marker substring, in their original order and unchanged, and a write
occurs iff at least one line was removed. -/
theorem C7_disable_exact (C : List Char) :
    ∃ d, (disable_truecolor_support (some C)).file = some d
      ∧ splitLines d = (splitLines C).filter keepLine
      ∧ (disable_truecolor_support (some C)).wrote = !((splitLines C).all keepLine) := by
  obtain ⟨d, hd, hsplit⟩ := disable_lines C
  refine ⟨d, hd, hsplit, ?_⟩
  by_cases hall : (splitLines C).all keepLine = true
  · rw [hall, disable_noop (List.all_eq_true.mp hall)]
    rfl
  · have hfalse : (splitLines C).all keepLine = false := by
      cases hX : (splitLines C).all keepLine
      · rfl
      · exact absurd hX hall
    rw [hfalse]
    have hlt : ((splitLines C).filter keepLine).length ≠ (splitLines C).length := by
      intro hlen
      have hfeq : (splitLines C).filter keepLine = splitLines C :=
        (List.filter_sublist (splitLines C)).eq_of_length hlen
      exact hall (List.all_eq_true.mpr (List.filter_eq_self.mp hfeq))
    simp only [disable_truecolor_support]
    rw [if_pos hlt]
    rfl

/-- C8: Disable on a missing file leaves no file, performs no write, and
prints the nothing-to-remove informational message. -/
theorem C8_disable_missing :
    disable_truecolor_support none = ⟨none, false, Msg.nothingToRemove⟩ := rfl

/-- C9: both flags together print the conflict error, leave the file
untouched and report handled; neither flag leaves the file untouched and
reports not handled. -/
theorem C9_handle_flags (file : Option (List Char)) :
    handle_arguments ⟨true, true⟩ file = (file, true, Action.conflictError)
  ∧ handle_arguments ⟨false, false⟩ file = (file, false, Action.noAction) :=
  ⟨rfl, rfl⟩

/-- C10: Enable keeps the original content as an exact byte-for-byte prefix,
with at most the two export lines appended after it. -/
theorem C10_enable_appends (C : List Char) :
    ∃ tail, (enable_truecolor_support (some C)).file = C ++ tail
      ∧ (tail = [] ∨ tail = colorExport ∨ tail = termExport
          ∨ tail = colorExport ++ termExport) := by
  refine ⟨(linesToAdd C).flatten, ?_, ?_⟩
  · rw [enable_file_eq]
    rfl
  · unfold linesToAdd
    cases h1 : containsCL C colorMarker <;> cases h2 : containsCL C termMarker <;> simp
